import Mathlib

/-!
Verification of the `rune` commit-message tool.

A shallow embedding of the core of the `rune` CLI (an AI-assisted git
commit-message generator) together with proofs about its
commit-message formatting pipeline (`internal/commit/formatter.go`),
its editor-template cleanup (`cleanCommitMessage` / `buildCommitTemplate`),
its staging reconciliation (`cmd/rune/root.go`, `internal/git/diff.go`)
and the interactive review loop of `generateCommitMessage`.

Go strings are modelled as lists of runes (`List Char`).  Go's `len` on a
string counts *bytes*, which we model as the sum of the UTF-8 sizes of the
runes (`goLen`).  Byte-slicing `s[:n]` is modelled by `takeBytes`, which
keeps whole runes as long as they fit in `n` bytes; when `n` falls in the
middle of a multi-byte rune, Go would additionally keep the leading bytes
of that rune (producing invalid UTF-8) — the rune-level model drops them,
so `goLen (takeBytes n s) ≤ n` while Go produces exactly `n` bytes.
Every theorem below is stated so that this difference does not matter.

The `unicode` package's case functions are modelled on the ASCII range
(`a`–`z` / `A`–`Z`); runes outside that range are treated as caseless.
All concrete inputs used in counterexamples keep their non-ASCII runes
away from the positions where Go would consult the full Unicode tables,
so the modelled behaviour coincides with the real one on those inputs.
-/

/-- A Go string, as its sequence of runes. -/
abbrev GoStr := List Char

/-- Go `unicode.IsSpace` (which backs `strings.TrimSpace` and
`strings.Fields`): `\t`, `\n`, `\v`, `\f`, `\r`, space, NEL (U+0085)
and NBSP (U+00A0). -/
def goIsSpace (c : Char) : Prop :=
  c.toNat = 32 ∨ (9 ≤ c.toNat ∧ c.toNat ≤ 13) ∨ c.toNat = 133 ∨ c.toNat = 160

instance (c : Char) : Decidable (goIsSpace c) := by
  unfold goIsSpace; infer_instance

/-- Go `len` of a string: the number of bytes of its UTF-8 encoding. -/
def goLen (s : GoStr) : Nat := (s.map Char.utf8Size).sum

/-- The predicate `goIsSpace` as a boolean. -/
def wsB (c : Char) : Bool := decide (goIsSpace c)

@[simp] theorem wsB_eq_true {c : Char} : wsB c = true ↔ goIsSpace c := by
  simp [wsB]

/-- Go `strings.TrimLeft` over whitespace (the left half of `TrimSpace`). -/
def trimLeftWs (s : GoStr) : GoStr := s.dropWhile wsB

/-- Go `strings.TrimRight` over whitespace (the right half of `TrimSpace`). -/
def trimRightWs (s : GoStr) : GoStr :=
  (s.reverse.dropWhile wsB).reverse

/-- Go `strings.TrimSpace`. -/
def trimSpace (s : GoStr) : GoStr := trimRightWs (trimLeftWs s)

/-- Go `strings.Split(s, "\n")`: split at every newline, keeping empty parts. -/
def splitOnNl : GoStr → List GoStr
  | [] => [[]]
  | c :: rest =>
    if c = '\n' then [] :: splitOnNl rest
    else
      match splitOnNl rest with
      | [] => [[c]]
      | h :: t => (c :: h) :: t

/-- Go `strings.Join(ls, "\n")`. -/
def joinNl (ls : List GoStr) : GoStr := List.intercalate ['\n'] ls

/-- Go `strings.Split(s, "\n\n")` (leftmost-first, non-overlapping). -/
def splitNlNl : GoStr → List GoStr
  | [] => [[]]
  | '\n' :: '\n' :: rest => [] :: splitNlNl rest
  | c :: rest =>
    match splitNlNl rest with
    | [] => [[c]]
    | h :: t => (c :: h) :: t

/-- Go `strings.Join(ls, "\n\n")`. -/
def joinNlNl (ls : List GoStr) : GoStr := List.intercalate ['\n', '\n'] ls

/-- Accumulator loop behind `goFields`; `cur` is the current word,
reversed. -/
def goFieldsAux : GoStr → GoStr → List GoStr
  | [], cur => if cur = [] then [] else [cur.reverse]
  | c :: s, cur =>
    if wsB c then
      if cur = [] then goFieldsAux s [] else cur.reverse :: goFieldsAux s []
    else goFieldsAux s (c :: cur)

/-- Go `strings.Fields`: maximal runs of non-whitespace runes. -/
def goFields (s : GoStr) : List GoStr := goFieldsAux s []

/-- Go `unicode.IsLower`, on the ASCII range of the model. -/
def goIsLower (c : Char) : Prop := 97 ≤ c.toNat ∧ c.toNat ≤ 122

instance (c : Char) : Decidable (goIsLower c) := by
  unfold goIsLower; infer_instance

/-- Go `unicode.IsUpper`, on the ASCII range of the model. -/
def goIsUpper (c : Char) : Prop := 65 ≤ c.toNat ∧ c.toNat ≤ 90

instance (c : Char) : Decidable (goIsUpper c) := by
  unfold goIsUpper; infer_instance

/-- A rune with a defined case, in the ASCII model. -/
def goHasCase (c : Char) : Prop := goIsLower c ∨ goIsUpper c

instance (c : Char) : Decidable (goHasCase c) := by
  unfold goHasCase; infer_instance

/-- Go `unicode.ToUpper`, on the ASCII range of the model. -/
def goToUpper (c : Char) : Char :=
  if goIsLower c then Char.ofNat (c.toNat - 32) else c

/-- Go `s[:n]` on a string, at rune granularity: keep whole runes while
they fit in `n` bytes.  (Go would additionally keep the leading bytes of a
rune straddling the boundary; see the header comment.) -/
def takeBytes : Nat → GoStr → GoStr
  | _, [] => []
  | n, c :: rest =>
    if c.utf8Size ≤ n then c :: takeBytes (n - c.utf8Size) rest else []

/-- The structure `commit.Message` (`internal/commit/formatter.go`). -/
structure Message where
  Subject : GoStr
  Body : GoStr
deriving DecidableEq

/-- Go `Message.Format`: subject, then `"\n\n"` and the body when the body is
non-empty; empty subject renders as the empty string. -/
def Message.Format (m : Message) : GoStr :=
  if m.Subject = [] then []
  else if m.Body = [] then m.Subject
  else m.Subject ++ '\n' :: '\n' :: m.Body

/-- First step of `formatSubject` after trimming: strip exactly one
trailing period (`strings.TrimSuffix(subject, ".")`). -/
def stripDot (s : GoStr) : GoStr :=
  if s.getLast? = some '.' then s.dropLast else s

/-- Second step: uppercase the first rune (`runes[0] = unicode.ToUpper`). -/
def capitalizeHead : GoStr → GoStr
  | [] => []
  | c :: rest => goToUpper c :: rest

/-- Go `formatSubject`: trim, strip one trailing period, capitalize, and
truncate to 47 bytes plus `"..."` when longer than `MaxSubjectLength = 50`
bytes. -/
def formatSubject (subject : GoStr) : GoStr :=
  let s1 := trimSpace subject
  let s2 := stripDot s1
  let s3 := capitalizeHead s2
  if 50 < goLen s3 then takeBytes 47 s3 ++ ['.', '.', '.'] else s3

/-- The greedy line-filling loop of `wrapText`: `cur` is the current line;
when adding the next word would exceed `maxLength` bytes the line is
flushed and the word starts a fresh line. -/
def greedy (maxLength : Nat) : List GoStr → GoStr → List GoStr
  | [], cur => if cur = [] then [] else [cur]
  | w :: ws, cur =>
    if cur ≠ [] ∧ maxLength < goLen cur + 1 + goLen w then
      cur :: greedy maxLength ws w
    else
      greedy maxLength ws (if cur = [] then w else cur ++ ' ' :: w)

/-- Go `wrapText(text, maxLength)`: texts of at most `maxLength` bytes are
returned trimmed; otherwise the trimmed text is split into fields and
re-flowed greedily. -/
def wrapText (text : GoStr) (maxLength : Nat) : GoStr :=
  if goLen text ≤ maxLength then trimSpace text
  else
    let words := goFields (trimSpace text)
    if words = [] then []
    else joinNl (greedy maxLength words [])

/-- Go `formatBody`: split the trimmed body on blank-line boundaries, wrap
each non-blank paragraph at `MaxBodyLineLength = 72`, and rejoin with one
blank line. -/
def formatBody (body : GoStr) : GoStr :=
  if body = [] then []
  else
    let paragraphs := splitNlNl (trimSpace body)
    joinNlNl
      ((paragraphs.filter fun p => !(trimSpace p).isEmpty).map
        fun p => wrapText p 72)

/-- Go `FormatCommitMessage`: the whole formatting pipeline.  `none` models
the error returns (`empty commit message` / `empty subject line`). -/
def FormatCommitMessage (rawMessage : GoStr) : Option Message :=
  if rawMessage = [] then none
  else
    match splitOnNl (trimSpace rawMessage) with
    | [] => none
    | l0 :: rest =>
      let subject0 := trimSpace l0
      if subject0 = [] then none
      else
        let subject := formatSubject subject0
        let body :=
          if rest = [] then []
          else
            let startBodyIndex :=
              match rest.findIdx? fun l => !(trimSpace l).isEmpty with
              | some i => 1 + i
              | none => 1
            let bodyLines :=
              if startBodyIndex < (l0 :: rest).length then
                (l0 :: rest).drop startBodyIndex
              else []
            if bodyLines = [] then [] else formatBody (joinNl bodyLines)
        some ⟨subject, body⟩

/-- The outcomes of `ValidateMessage` (errors are identified by kind; the
`nil message` case has no counterpart for a value-level `Message`). -/
inductive VErr where
  | emptySubject
  | subjectTooLong
  | trailingPeriod
  | notCapitalized
deriving DecidableEq

/-- Go `ValidateMessage`: the sequence of style checks, first failure wins. -/
def ValidateMessage (m : Message) : Option VErr :=
  if m.Subject = [] then some .emptySubject
  else if 50 < goLen m.Subject then some .subjectTooLong
  else if m.Subject.getLast? = some '.' then some .trailingPeriod
  else if goIsLower (m.Subject.headD ' ') then some .notCapitalized
  else none

/-- Go `ParseMessage`: recover a `Message` from rendered text. -/
def ParseMessage (formatted : GoStr) : Option Message :=
  if formatted = [] then none
  else
    match splitOnNl formatted with
    | [] => none
    | l0 :: rest =>
      let subject := trimSpace l0
      if subject = [] then none
      else
        let body :=
          match rest with
          | [] => []
          | [l1] => trimSpace l1
          | l1 :: rest2 =>
            if trimSpace l1 = [] then joinNl rest2 else joinNl (l1 :: rest2)
        some ⟨subject, body⟩

/-- The comment lines appended by `buildCommitTemplate`, in order. -/
def templateCommentLines : List GoStr :=
  ["# Please enter the commit message for your changes. Lines starting".toList,
   "# with '#' will be ignored, and an empty message aborts the commit.".toList,
   "#".toList,
   "# Conventional Commit Format:".toList,
   "# <type>[optional scope]: <description>".toList,
   "#".toList,
   "# [optional body]".toList,
   "#".toList,
   "# [optional footer(s)]".toList,
   "#".toList,
   "# Types: feat, fix, docs, style, refactor, test, chore".toList,
   "# Example: feat(auth): add OAuth2 login support".toList,
   "#".toList,
   "# Tips:".toList,
   "# - Use imperative mood (\"add\" not \"added\")".toList,
   "# - Keep the first line under 50 characters".toList,
   "# - Separate subject from body with a blank line".toList,
   "# - Wrap body at 72 characters".toList]

/-- Go `buildCommitTemplate`: the initial message, a blank line, then the
commented help text. -/
def buildCommitTemplate (initialMessage : GoStr) : GoStr :=
  initialMessage ++ '\n' :: '\n' :: joinNl templateCommentLines

/-- The comment test of `cleanCommitMessage`:
`strings.HasPrefix(strings.TrimSpace(line), "#")`. -/
def isCommentLine (line : GoStr) : Bool := (trimSpace line).headD ' ' == '#'

/-- Go `cleanCommitMessage`: drop every line whose trimmed form starts with
`#`, rejoin, and trim the result. -/
def cleanCommitMessage (content : GoStr) : GoStr :=
  let lines := splitOnNl content
  let cleanLines := lines.filter fun line => !isCommentLine line
  trimSpace (joinNl cleanLines)

/-! ## The interactive review loop of `generateCommitMessage`
(`src/unnamed/part_003`)

The loop is driven by external events: each iteration consumes the
outcome of `client.GenerateCommitMessage`, and — when generation and
formatting succeed — the user's menu choice, possibly with the raw
buffer produced by the editor.  A session script is a list of such
rounds; running out of script models Go blocking forever on input, and
yields `none`. -/

/-- Outcome of one `client.GenerateCommitMessage` call. -/
inductive GenResult where
  | ok (raw : GoStr)
  | fail
deriving DecidableEq

/-- Outcome of one `openEditor` call: either the editor failed, or it
produced a buffer (which `openEditor` passes through
`cleanCommitMessage`). -/
inductive EditResult where
  | ok (buffer : GoStr)
  | fail
deriving DecidableEq

/-- The user's menu input: `1` regenerate, `2` accept, `3` edit,
`4` quit, anything else invalid. -/
inductive Choice where
  | regen
  | accept
  | edit (e : EditResult)
  | quit
  | invalid
deriving DecidableEq

/-- One iteration's external events. -/
structure Round where
  gen : GenResult
  choice : Choice
deriving DecidableEq

/-- Errors that make the review loop `return` before any commit. -/
inductive LoopErr where
  | genFailed
  | formatFailed
  | editorFailed
  | aborted
deriving DecidableEq

/-- How the loop hands control back to the rest of
`generateCommitMessage`. -/
inductive LoopExit where
  | err (e : LoopErr)
  | finalMessage (msg : GoStr)
deriving DecidableEq

/-- How the whole `generateCommitMessage` call ends. -/
inductive Outcome where
  | noChanges
  | diffFailed
  | loopErr (e : LoopErr)
  | commitFailed
  | committed
deriving DecidableEq

/-- The `for` loop of `generateCommitMessage`: returns the loop exit and
the number of `client.GenerateCommitMessage` invocations made. -/
def runLoop : List Round → Nat → Option (LoopExit × Nat)
  | [], _ => none
  | r :: rest, gens =>
    let gens' := gens + 1
    match r.gen with
    | .fail => some (.err .genFailed, gens')
    | .ok rawMessage =>
      match FormatCommitMessage rawMessage with
      | none => some (.err .formatFailed, gens')
      | some message =>
        match r.choice with
        | .regen => runLoop rest gens'
        | .accept => some (.finalMessage message.Format, gens')
        | .edit .fail => some (.err .editorFailed, gens')
        | .edit (.ok buffer) =>
          let editedMessage := cleanCommitMessage buffer
          if trimSpace editedMessage = [] then runLoop rest gens'
          else some (.finalMessage editedMessage, gens')
        | .quit => some (.err .aborted, gens')
        | .invalid => runLoop rest gens'

/-- The observable result of one `generateCommitMessage` session. -/
structure SessionResult where
  outcome : Outcome
  genCalls : Nat
  /-- The argument passed to `git.UnstageFiles` by the deferred cleanup,
  when it fires. -/
  unstaged : Option (List GoStr)
  finalMessage : Option GoStr
deriving DecidableEq

/-- The deferred cleanup installed after auto-staging: it unstages
`stagedByTool` exactly when the commit was not successful and the tool
staged something. -/
def finishSession (stagedByTool : List GoStr) (commitSuccessful : Bool)
    (o : Outcome) (gens : Nat) (finalMessage : Option GoStr) : SessionResult :=
  { outcome := o
    genCalls := gens
    unstaged :=
      if commitSuccessful = false ∧ stagedByTool ≠ [] then some stagedByTool
      else none
    finalMessage := finalMessage }

/-- Go `generateCommitMessage` from the point where the deferred cleanup is
installed: the zero-staged-files early return, diff extraction, the
review loop, and the final commit step (`commitOk` is the exit status of
`git commit`). -/
def runSession (stagedByTool : List GoStr) (totalStagedFiles : Nat)
    (diffOk : Bool) (rounds : List Round) (commitOk : Bool) :
    Option SessionResult :=
  if totalStagedFiles = 0 then
    some (finishSession stagedByTool false .noChanges 0 none)
  else if diffOk = false then
    some (finishSession stagedByTool false .diffFailed 0 none)
  else
    match runLoop rounds 0 with
    | none => none
    | some (.err e, gens) =>
      some (finishSession stagedByTool false (.loopErr e) gens none)
    | some (.finalMessage msg, gens) =>
      if commitOk then
        some (finishSession stagedByTool true .committed gens (some msg))
      else
        some (finishSession stagedByTool false .commitFailed gens (some msg))

/-! ## Staging reconciliation -/

/-- The newly-staged computation of `generateCommitMessage`
(`cmd/rune/root.go`): the files of the after-snapshot that are not
contained in the before-snapshot, in snapshot order. -/
def stagedByToolCompute {α : Type} [DecidableEq α]
    (previousStagedFiles toBeStagedFiles : List α) : List α :=
  toBeStagedFiles.filter fun file => !previousStagedFiles.contains file

/-- The result record of `git.AtomicStageAll`. -/
structure StageResult (α : Type) where
  NewlyStaged : List α
  TotalStaged : List α

/-- Modelled from the spec: `git.AtomicStageAll` (§4.2) — its body is
not under `src/`, only its callers are.  It snapshots the staged set
(`before`), stages everything (producing `after ⊇ before`), snapshots
again, and returns `newlyStaged = after − before`, `totalStaged = after`;
the difference is the same computation `cmd/rune/root.go` performs
inline. -/
def AtomicStageAll {α : Type} [DecidableEq α] (before after : List α) :
    StageResult α :=
  ⟨stagedByToolCompute before after, after⟩

/-- Modelled from the spec: the effect of `git.UnstageFiles`
(`git reset HEAD -- <paths>`, §4.2) on the staged set — it removes
exactly the given paths from the staging index. -/
def unstageEffect {α : Type} [DecidableEq α] (staged files : List α) :
    List α :=
  staged.filter fun f => !files.contains f

example :
    cleanCommitMessage "Fix bug\n\n# a comment\nmore".toList =
      "Fix bug\n\nmore".toList := by decide
example :
    cleanCommitMessage (buildCommitTemplate "Fix bug".toList) =
      "Fix bug".toList := by decide

example : goToUpper 'a' = 'A' := by decide
example :
    FormatCommitMessage "add user authentication".toList =
      some ⟨"Add user authentication".toList, []⟩ := by decide
example :
    FormatCommitMessage "fix memory leak.".toList =
      some ⟨"Fix memory leak".toList, []⟩ := by decide
example :
    FormatCommitMessage "add user authentication\n\nImplement JWT-based authentication system".toList =
      some ⟨"Add user authentication".toList,
        "Implement JWT-based authentication system".toList⟩ := by decide
example :
    FormatCommitMessage "  fix bug  ".toList = some ⟨"Fix bug".toList, []⟩ := by
  decide
example :
    FormatCommitMessage "\n\nSome body text".toList =
      some ⟨"Some body text".toList, []⟩ := by decide
example :
    wrapText "This is a very long line that should be wrapped at the specified length to ensure proper formatting".toList 20 =
      "This is a very long\nline that should be\nwrapped at the\nspecified length to\nensure proper\nformatting".toList := by
  decide
example :
    wrapText "Supercalifragilisticexpialidocious short".toList 10 =
      "Supercalifragilisticexpialidocious\nshort".toList := by decide
example : wrapText "   \n  \t  ".toList 72 = [] := by decide
example :
    FormatCommitMessage "fix critical bug\n\nFirst paragraph explains the issue.\n\nSecond paragraph provides more context about the fix and why it was necessary.".toList =
      some ⟨"Fix critical bug".toList,
        "First paragraph explains the issue.\n\nSecond paragraph provides more context about the fix and why it was\nnecessary.".toList⟩ := by
  decide
example :
    ParseMessage "Fix bug\n\nFirst line\nSecond line".toList =
      some ⟨"Fix bug".toList, "First line\nSecond line".toList⟩ := by decide
example :
    ParseMessage "Subject\nImmediate body".toList =
      some ⟨"Subject".toList, "Immediate body".toList⟩ := by decide
example :
    ValidateMessage ⟨"Add feature.".toList, []⟩ = some .trailingPeriod := by
  decide
example :
    ValidateMessage ⟨"add feature".toList, []⟩ = some .notCapitalized := by
  decide
example : ValidateMessage ⟨"Add feature".toList, "Some body".toList⟩ = none := by
  decide

/-! ## Basic lemmas about byte length -/

theorem goLen_nil : goLen [] = 0 := rfl

theorem goLen_cons (c : Char) (s : GoStr) :
    goLen (c :: s) = c.utf8Size + goLen s := by
  simp [goLen]

theorem goLen_append (s t : GoStr) : goLen (s ++ t) = goLen s + goLen t := by
  simp [goLen]

theorem goLen_sublist {s t : GoStr} (h : List.Sublist s t) : goLen s ≤ goLen t := by
  induction h with
  | slnil => exact Nat.le_refl _
  | cons c _ ih => rw [goLen_cons]; omega
  | cons₂ c _ ih => rw [goLen_cons, goLen_cons]; omega

theorem goLen_eq_zero {s : GoStr} (h : goLen s = 0) : s = [] := by
  cases s with
  | nil => rfl
  | cons c t =>
    rw [goLen_cons] at h
    have := c.utf8Size_pos
    omega

theorem utf8Size_le_four (c : Char) : c.utf8Size ≤ 4 := by
  have := c.utf8Size_eq
  rcases this with h | h | h | h <;> omega

/-! ## Lemmas about whitespace trimming -/

theorem not_goIsSpace_nl : goIsSpace '\n' := by decide

theorem trimLeftWs_sublist (s : GoStr) : List.Sublist (trimLeftWs s) s :=
  List.dropWhile_sublist _

theorem trimRightWs_sublist (s : GoStr) : List.Sublist (trimRightWs s) s := by
  have h := List.dropWhile_sublist (l := s.reverse) (p := wsB)
  have := h.reverse
  simpa [trimRightWs] using this

theorem trimSpace_sublist (s : GoStr) : List.Sublist (trimSpace s) s :=
  (trimRightWs_sublist _).trans (trimLeftWs_sublist s)

theorem goLen_trimSpace_le (s : GoStr) : goLen (trimSpace s) ≤ goLen s :=
  goLen_sublist (trimSpace_sublist s)

theorem trimLeftWs_cons_of_not_ws {c : Char} (h : ¬ goIsSpace c)
    (s : GoStr) : trimLeftWs (c :: s) = c :: s := by
  simp [trimLeftWs, List.dropWhile_cons, wsB_eq_true, h]

theorem trimLeftWs_head_not_ws {s : GoStr} {c : Char} {t : GoStr}
    (h : trimLeftWs s = c :: t) : ¬ goIsSpace c := by
  induction s with
  | nil => simp [trimLeftWs] at h
  | cons a s ih =>
    by_cases ha : goIsSpace a
    · apply ih
      simpa [trimLeftWs, List.dropWhile_cons, wsB_eq_true, ha] using h
    · rw [trimLeftWs_cons_of_not_ws ha] at h
      cases h
      exact ha
example : goToUpper 'Z' = 'Z' := by decide
example : goToUpper '.' = '.' := by decide
example : trimSpace "  fix bug  ".toList = "fix bug".toList := by decide
example : splitOnNl "a\nb".toList = ["a".toList, "b".toList] := by decide
example : splitNlNl "a\n\nb".toList = ["a".toList, "b".toList] := by decide
example : goFields " a  bc ".toList = ["a".toList, "bc".toList] := by decide
example : goLen ['a', 'é'] = 3 := by decide

theorem dropWhileWs_append_of_all {xs : GoStr} (ys : GoStr)
    (h : ∀ c ∈ xs, goIsSpace c) :
    (xs ++ ys).dropWhile wsB = ys.dropWhile wsB := by
  induction xs with
  | nil => rfl
  | cons a xs ih =>
    have ha : goIsSpace a := h a (by simp)
    simp only [List.cons_append, List.dropWhile_cons, wsB_eq_true, ha,
      if_pos, decide_eq_true_eq]
    exact ih fun c hc => h c (by simp [hc])

theorem dropWhileWs_append_of_ne_nil {xs : GoStr} (ys : GoStr)
    (h : xs.dropWhile wsB ≠ []) :
    (xs ++ ys).dropWhile wsB = xs.dropWhile wsB ++ ys := by
  induction xs with
  | nil => simp [List.dropWhile] at h
  | cons a xs ih =>
    by_cases ha : goIsSpace a
    · simp only [List.dropWhile_cons, wsB_eq_true, ha, if_pos,
        decide_eq_true_eq] at h
      simp only [List.cons_append, List.dropWhile_cons, wsB_eq_true, ha,
        if_pos, decide_eq_true_eq]
      exact ih h
    · simp only [List.cons_append, List.dropWhile_cons, wsB_eq_true, ha,
        if_neg, decide_eq_true_eq]
      simp [List.dropWhile_cons, wsB_eq_true, ha]

theorem dropWhileWs_eq_nil_iff {xs : GoStr} :
    xs.dropWhile wsB = [] ↔ ∀ c ∈ xs, goIsSpace c := by
  induction xs with
  | nil => simp
  | cons a xs ih =>
    by_cases ha : goIsSpace a
    · simp [List.dropWhile_cons, wsB_eq_true, ha, ih]
    · simp [List.dropWhile_cons, wsB_eq_true, ha]

theorem trimLeftWs_eq_nil_iff {s : GoStr} :
    trimLeftWs s = [] ↔ ∀ c ∈ s, goIsSpace c :=
  dropWhileWs_eq_nil_iff

theorem trimRightWs_eq_nil_iff {s : GoStr} :
    trimRightWs s = [] ↔ ∀ c ∈ s, goIsSpace c := by
  rw [trimRightWs, List.reverse_eq_nil_iff, dropWhileWs_eq_nil_iff]
  constructor
  · intro h c hc; exact h c (by simpa using hc)
  · intro h c hc; exact h c (by simpa using hc)

theorem trimSpace_eq_nil_iff {s : GoStr} :
    trimSpace s = [] ↔ ∀ c ∈ s, goIsSpace c := by
  rw [trimSpace, trimRightWs_eq_nil_iff]
  constructor
  · intro h c hc
    rw [← List.takeWhile_append_dropWhile (p := wsB) (l := s)] at hc
    rcases List.mem_append.mp hc with h1 | h2
    · simpa using List.mem_takeWhile_imp h1
    · exact h c (by simpa [trimLeftWs] using h2)
  · intro h c hc
    exact h c (List.Sublist.mem hc (trimLeftWs_sublist s))

theorem trimRightWs_spec (s : GoStr) :
    ∃ t, s = trimRightWs s ++ t ∧ ∀ c ∈ t, goIsSpace c := by
  refine ⟨(s.reverse.takeWhile wsB).reverse, ?_, ?_⟩
  · rw [trimRightWs, ← List.reverse_append, List.takeWhile_append_dropWhile,
      List.reverse_reverse]
  · intro c hc
    rw [List.mem_reverse] at hc
    simpa using List.mem_takeWhile_imp hc

theorem trimRightWs_head? {s : GoStr} (h : trimRightWs s ≠ []) :
    (trimRightWs s).head? = s.head? := by
  obtain ⟨t, hs, -⟩ := trimRightWs_spec s
  conv_rhs => rw [hs]
  cases htr : trimRightWs s with
  | nil => exact absurd htr h
  | cons c u => simp [htr]

theorem dropWhileWs_idem (l : GoStr) :
    (l.dropWhile wsB).dropWhile wsB = l.dropWhile wsB := by
  cases hd : l.dropWhile wsB with
  | nil => rfl
  | cons c t =>
    have hc : ¬ goIsSpace c := trimLeftWs_head_not_ws (s := l) hd
    simp [List.dropWhile_cons, wsB_eq_true, hc]

theorem trimRightWs_idem (s : GoStr) :
    trimRightWs (trimRightWs s) = trimRightWs s := by
  unfold trimRightWs
  rw [List.reverse_reverse, dropWhileWs_idem]

theorem trimSpace_idem (s : GoStr) : trimSpace (trimSpace s) = trimSpace s := by
  have hleft : trimLeftWs (trimSpace s) = trimSpace s := by
    cases ht : trimSpace s with
    | nil => rfl
    | cons c u =>
      have hne : trimRightWs (trimLeftWs s) ≠ [] := by
        rw [← trimSpace]; simp [ht]
      have hh := trimRightWs_head? (s := trimLeftWs s) hne
      rw [← trimSpace, ht] at hh
      have : trimLeftWs s = c :: (trimLeftWs s).tail := by
        cases hl : trimLeftWs s with
        | nil => rw [hl] at hh; simp at hh
        | cons d v => rw [hl] at hh; simp at hh; simp [hh]
      have hc : ¬ goIsSpace c := trimLeftWs_head_not_ws (s := s) this
      exact trimLeftWs_cons_of_not_ws hc u
  show trimRightWs (trimLeftWs (trimSpace s)) = trimSpace s
  rw [hleft, trimSpace, trimRightWs_idem]

theorem trimSpace_eq_self_parts {s : GoStr} (h : trimSpace s = s) :
    trimLeftWs s = s ∧ trimRightWs s = s := by
  have h1 : List.Sublist (trimLeftWs s) s := trimLeftWs_sublist s
  have h2 : List.Sublist (trimRightWs (trimLeftWs s)) (trimLeftWs s) :=
    trimRightWs_sublist _
  have hlen : s.length ≤ (trimLeftWs s).length := by
    calc s.length = (trimSpace s).length := by rw [h]
    _ ≤ (trimLeftWs s).length := h2.length_le
  have hL : trimLeftWs s = s :=
    h1.eq_of_length (Nat.le_antisymm h1.length_le hlen)
  refine ⟨hL, ?_⟩
  have := h
  rw [trimSpace, hL] at this
  exact this

theorem trimRightWs_append_of_allWs {ys : GoStr} (xs : GoStr)
    (h : ∀ c ∈ ys, goIsSpace c) :
    trimRightWs (xs ++ ys) = trimRightWs xs := by
  unfold trimRightWs
  rw [List.reverse_append, dropWhileWs_append_of_all]
  intro c hc
  exact h c (by simpa using hc)

theorem trimRightWs_append_of_not_allWs {ys : GoStr} (xs : GoStr)
    (h : ¬ ∀ c ∈ ys, goIsSpace c) :
    trimRightWs (xs ++ ys) = xs ++ trimRightWs ys := by
  unfold trimRightWs
  rw [List.reverse_append, dropWhileWs_append_of_ne_nil, List.reverse_append,
    List.reverse_reverse]
  intro hnil
  rw [dropWhileWs_eq_nil_iff] at hnil
  exact h fun c hc => hnil c (by simpa using hc)

/-! ## Lemmas about line splitting and joining -/

theorem splitOnNl_ne_nil (s : GoStr) : splitOnNl s ≠ [] := by
  induction s with
  | nil => simp [splitOnNl]
  | cons c rest ih =>
    by_cases hc : c = '\n'
    · simp [splitOnNl, hc]
    · simp only [splitOnNl, hc, if_false]
      cases h : splitOnNl rest with
      | nil => simp
      | cons a t => simp

theorem mem_splitOnNl_no_nl {s l : GoStr} (h : l ∈ splitOnNl s) :
    '\n' ∉ l := by
  induction s generalizing l with
  | nil =>
    simp only [splitOnNl, List.mem_singleton] at h
    simp [h]
  | cons c rest ih =>
    by_cases hc : c = '\n'
    · simp only [splitOnNl, hc, if_pos, List.mem_cons] at h
      rcases h with rfl | h
      · simp
      · exact ih h
    · simp only [splitOnNl, hc, if_false] at h
      cases hr : splitOnNl rest with
      | nil => exact absurd hr (splitOnNl_ne_nil rest)
      | cons a t =>
        rw [hr] at h
        rcases List.mem_cons.mp h with rfl | h
        · intro hmem
          rcases List.mem_cons.mp hmem with h1 | h1
          · exact hc h1.symm
          · exact ih (by rw [hr]; exact List.mem_cons_self a t) h1
        · exact ih (by rw [hr]; exact List.mem_cons_of_mem a h)

theorem splitOnNl_of_not_mem {s : GoStr} (h : '\n' ∉ s) :
    splitOnNl s = [s] := by
  induction s with
  | nil => rfl
  | cons c rest ih =>
    have hc : c ≠ '\n' := fun hcc => h (by simp [hcc])
    have hrest : '\n' ∉ rest := fun hm => h (List.mem_cons_of_mem c hm)
    simp only [splitOnNl, hc, if_false, ih hrest]

theorem joinNl_nil : joinNl [] = [] := rfl

theorem joinNl_singleton (a : GoStr) : joinNl [a] = a := by
  simp [joinNl, List.intercalate]

theorem joinNl_cons_cons (a b : GoStr) (ls : List GoStr) :
    joinNl (a :: b :: ls) = a ++ '\n' :: joinNl (b :: ls) := by
  simp [joinNl, List.intercalate, List.intersperse_cons_cons]

theorem splitOnNl_append_cons {xs : GoStr} (ys : GoStr) (h : '\n' ∉ xs) :
    splitOnNl (xs ++ '\n' :: ys) = xs :: splitOnNl ys := by
  induction xs with
  | nil => simp [splitOnNl]
  | cons c rest ih =>
    have hc : c ≠ '\n' := fun hcc => h (by simp [hcc])
    have hrest : '\n' ∉ rest := fun hm => h (List.mem_cons_of_mem c hm)
    simp only [List.cons_append, splitOnNl, hc, if_false]
    rw [show List.append rest ('\n' :: ys) = rest ++ '\n' :: ys from rfl,
      ih hrest]

theorem joinNl_splitOnNl (s : GoStr) : joinNl (splitOnNl s) = s := by
  induction s with
  | nil => rfl
  | cons c rest ih =>
    cases hr : splitOnNl rest with
    | nil => exact absurd hr (splitOnNl_ne_nil rest)
    | cons a t =>
      rw [hr] at ih
      by_cases hc : c = '\n'
      · simp only [splitOnNl, hc, if_pos, hr]
        rw [show ([] : GoStr) :: a :: t = [] :: a :: t from rfl,
          joinNl_cons_cons, ih]
        simp
      · simp only [splitOnNl, hc, if_false, hr]
        cases t with
        | nil => rw [joinNl_singleton] at ih; rw [joinNl_singleton, ih]
        | cons b t2 =>
          rw [joinNl_cons_cons] at ih
          rw [joinNl_cons_cons, List.cons_append, ih]

theorem splitOnNl_joinNl {ls : List GoStr} (hne : ls ≠ [])
    (h : ∀ l ∈ ls, '\n' ∉ l) : splitOnNl (joinNl ls) = ls := by
  induction ls with
  | nil => exact absurd rfl hne
  | cons a ls ih =>
    cases ls with
    | nil =>
      rw [joinNl_singleton]
      exact splitOnNl_of_not_mem (h a (by simp))
    | cons b ls2 =>
      rw [joinNl_cons_cons, splitOnNl_append_cons _ (h a (by simp))]
      rw [ih (by simp) fun l hl => h l (List.mem_cons_of_mem a hl)]

theorem goLen_mem_splitOnNl_le {s l : GoStr} (h : l ∈ splitOnNl s) :
    goLen l ≤ goLen s := by
  induction s generalizing l with
  | nil =>
    simp only [splitOnNl, List.mem_singleton] at h
    simp [h]
  | cons c rest ih =>
    have hstep : goLen rest ≤ goLen (c :: rest) := by rw [goLen_cons]; omega
    by_cases hc : c = '\n'
    · simp only [splitOnNl, hc, if_pos, List.mem_cons] at h
      rcases h with rfl | h
      · simp [goLen]
      · exact le_trans (ih h) hstep
    · simp only [splitOnNl, hc, if_false] at h
      cases hr : splitOnNl rest with
      | nil => exact absurd hr (splitOnNl_ne_nil rest)
      | cons a t =>
        rw [hr] at h
        rcases List.mem_cons.mp h with rfl | hmem
        · rw [goLen_cons, goLen_cons]
          have ha : goLen a ≤ goLen rest :=
            ih (by rw [hr]; exact List.mem_cons_self a t)
          omega
        · refine le_trans (ih ?_) hstep
          rw [hr]
          exact List.mem_cons_of_mem a hmem

theorem splitOnNl_head_head {s : GoStr} {c : Char} {r : GoStr}
    (hs : s = c :: r) (hc : c ≠ '\n') :
    ∃ h t, splitOnNl s = h :: t ∧ h.head? = some c := by
  subst hs
  simp only [splitOnNl, hc, if_false]
  cases hr : splitOnNl r with
  | nil => exact absurd hr (splitOnNl_ne_nil r)
  | cons a t => exact ⟨c :: a, t, rfl, rfl⟩

/-! ## Lemmas about the ASCII case model and UTF-8 sizes -/

theorem toNat_ofNat_lt {n : Nat} (h : n < 55296) : (Char.ofNat n).toNat = n := by
  have hv : n.isValidChar := Or.inl h
  simp [Char.ofNat, hv, Char.ofNatAux, Char.toNat, UInt32.toNat,
    UInt32.ofNatCore]

theorem utf8Size_eq_one_iff (c : Char) : c.utf8Size = 1 ↔ c.toNat ≤ 127 := by
  have hval : c.toNat = c.val.toBitVec.toNat := rfl
  have h127 : (UInt32.ofNatCore 0x7F (by decide)).toBitVec.toNat = 127 := rfl
  rw [Char.utf8Size]
  show (if c.val ≤ UInt32.ofNatCore 0x7F (by decide) then 1
    else if c.val ≤ UInt32.ofNatCore 0x7FF (by decide) then 2
      else if c.val ≤ UInt32.ofNatCore 0xFFFF (by decide) then 3 else 4) = 1 ↔
    c.toNat ≤ 127
  by_cases h : c.val ≤ UInt32.ofNatCore 0x7F (by decide)
  · rw [if_pos h]
    have h2 := BitVec.le_def.mp (UInt32.le_def.mp h)
    rw [h127] at h2
    exact ⟨fun _ => hval ▸ h2, fun _ => rfl⟩
  · have h2 : ¬ c.toNat ≤ 127 := by
      intro hle
      apply h
      apply UInt32.le_def.mpr
      apply BitVec.le_def.mpr
      rw [h127, ← hval]
      exact hle
    rw [if_neg h]
    constructor
    · intro hh
      exfalso
      split at hh
      · omega
      · split at hh <;> omega
    · intro hh
      exact absurd hh h2

theorem goToUpper_toNat (c : Char) :
    (goToUpper c).toNat = if goIsLower c then c.toNat - 32 else c.toNat := by
  unfold goToUpper
  by_cases h : goIsLower c
  · rw [if_pos h, if_pos h, toNat_ofNat_lt]
    have := h.2
    unfold goIsLower at h
    omega
  · rw [if_neg h, if_neg h]

theorem not_goIsLower_goToUpper (c : Char) : ¬ goIsLower (goToUpper c) := by
  intro hl
  have ht := goToUpper_toNat c
  by_cases h : goIsLower c
  · rw [if_pos h] at ht
    unfold goIsLower at h hl
    omega
  · rw [if_neg h] at ht
    apply h
    unfold goIsLower at hl ⊢
    omega

theorem goIsUpper_goToUpper {c : Char} (h : goHasCase (goToUpper c)) :
    goIsUpper (goToUpper c) := by
  rcases h with h | h
  · exact absurd h (not_goIsLower_goToUpper c)
  · exact h

theorem goToUpper_of_not_lower {c : Char} (h : ¬ goIsLower c) :
    goToUpper c = c := if_neg h

theorem goToUpper_ne_nl {c : Char} (h : c ≠ '\n') : goToUpper c ≠ '\n' := by
  intro he
  by_cases hl : goIsLower c
  · have ht := goToUpper_toNat c
    rw [he, if_pos hl] at ht
    have h10 : ('\n').toNat = 10 := rfl
    unfold goIsLower at hl
    omega
  · rw [goToUpper_of_not_lower hl] at he
    exact h he

theorem utf8Size_goToUpper_one {c : Char} (h : c.utf8Size = 1) :
    (goToUpper c).utf8Size = 1 := by
  rw [utf8Size_eq_one_iff] at h ⊢
  rw [goToUpper_toNat]
  split <;> omega

/-! ## Lemmas about byte slicing -/

theorem goLen_takeBytes_le (n : Nat) (s : GoStr) : goLen (takeBytes n s) ≤ n := by
  induction s generalizing n with
  | nil => simp [takeBytes, goLen]
  | cons c r ih =>
    rw [takeBytes]
    by_cases h : c.utf8Size ≤ n
    · rw [if_pos h, goLen_cons]
      have := ih (n - c.utf8Size)
      omega
    · rw [if_neg h]
      simp [goLen]

theorem takeBytes_sublist (n : Nat) (s : GoStr) :
    List.Sublist (takeBytes n s) s := by
  induction s generalizing n with
  | nil => simp [takeBytes]
  | cons c r ih =>
    rw [takeBytes]
    by_cases h : c.utf8Size ≤ n
    · rw [if_pos h]
      exact (ih _).cons₂ c
    · rw [if_neg h]
      exact List.nil_sublist _

theorem takeBytes_all_one {s : GoStr} (n : Nat) (h : ∀ c ∈ s, c.utf8Size = 1) :
    takeBytes n s = s.take n := by
  induction s generalizing n with
  | nil => simp [takeBytes]
  | cons c r ih =>
    rw [takeBytes, h c (by simp)]
    by_cases hn : 1 ≤ n
    · rw [if_pos hn, ih (n - 1) fun d hd => h d (by simp [hd])]
      cases n with
      | zero => omega
      | succ m => simp
    · rw [if_neg hn]
      have : n = 0 := by omega
      simp [this]

theorem goLen_all_one {s : GoStr} (h : ∀ c ∈ s, c.utf8Size = 1) :
    goLen s = s.length := by
  induction s with
  | nil => rfl
  | cons c r ih =>
    rw [goLen_cons, h c (by simp), ih fun d hd => h d (by simp [hd])]
    simp [Nat.add_comm]

/-! ## Properties of `formatSubject` -/

theorem goLen_formatSubject_le (s : GoStr) : goLen (formatSubject s) ≤ 50 := by
  simp only [formatSubject]
  by_cases h : 50 < goLen (capitalizeHead (stripDot (trimSpace s)))
  · rw [if_pos h, goLen_append]
    have h1 := goLen_takeBytes_le 47 (capitalizeHead (stripDot (trimSpace s)))
    have h3 : goLen ['.', '.', '.'] = 3 := by decide
    omega
  · rw [if_neg h]
    omega

theorem formatSubject_head_upper {s : GoStr} {c : Char}
    (hc : (formatSubject s).head? = some c) (hcase : goHasCase c) :
    goIsUpper c := by
  simp only [formatSubject] at hc
  cases hs2 : stripDot (trimSpace s) with
  | nil =>
    rw [hs2] at hc
    simp only [capitalizeHead] at hc
    norm_num [goLen] at hc
    exact absurd hc (by simp)
  | cons c0 rest =>
    rw [hs2] at hc
    simp only [capitalizeHead] at hc
    have hhead : c = goToUpper c0 := by
      by_cases h : 50 < goLen (goToUpper c0 :: rest)
      · rw [if_pos h] at hc
        rw [takeBytes, if_pos (le_trans (utf8Size_le_four _) (by omega))] at hc
        simpa using hc.symm
      · rw [if_neg h] at hc
        simpa using hc.symm
    subst hhead
    exact goIsUpper_goToUpper hcase

theorem goToUpper_eq_dot {c : Char} (h : goToUpper c = '.') : c = '.' := by
  by_cases hl : goIsLower c
  · exfalso
    have ht := goToUpper_toNat c
    rw [h, if_pos hl] at ht
    have h46 : ('.').toNat = 46 := rfl
    have := hl.1
    have := hl.2
    omega
  · rw [goToUpper_of_not_lower hl] at h
    exact h

theorem formatSubject_dot_suffix {s : GoStr}
    (h : (formatSubject s).getLast? = some '.') :
    ((trimSpace s).getLast? = some '.' ∧
      (trimSpace s).dropLast.getLast? = some '.') ∨
    ∃ t, formatSubject s = t ++ ['.', '.', '.'] := by
  by_cases h50 : 50 < goLen (capitalizeHead (stripDot (trimSpace s)))
  · right
    refine ⟨takeBytes 47 (capitalizeHead (stripDot (trimSpace s))), ?_⟩
    simp only [formatSubject]
    rw [if_pos h50]
  · left
    have hfs : formatSubject s = capitalizeHead (stripDot (trimSpace s)) := by
      simp only [formatSubject]
      rw [if_neg h50]
    rw [hfs] at h
    have hs2 : (stripDot (trimSpace s)).getLast? = some '.' := by
      cases hs2 : stripDot (trimSpace s) with
      | nil => rw [hs2] at h; simp [capitalizeHead] at h
      | cons c0 rest =>
        rw [hs2] at h
        cases rest with
        | nil =>
          simp only [capitalizeHead] at h
          simp only [List.getLast?_singleton, Option.some_inj] at h ⊢
          exact goToUpper_eq_dot h
        | cons d rest2 =>
          simp only [capitalizeHead] at h
          rwa [List.getLast?_cons_cons] at h ⊢
    by_cases hdot : (trimSpace s).getLast? = some '.'
    · refine ⟨hdot, ?_⟩
      rw [stripDot, if_pos hdot] at hs2
      exact hs2
    · rw [stripDot, if_neg hdot] at hs2
      exact absurd hs2 hdot

theorem capitalizeHead_no_nl {s : GoStr} (h : '\n' ∉ s) :
    '\n' ∉ capitalizeHead s := by
  cases s with
  | nil => simp [capitalizeHead]
  | cons c r =>
    intro hmem
    rcases List.mem_cons.mp hmem with h1 | h1
    · exact goToUpper_ne_nl (fun hc => h (by simp [hc])) h1.symm
    · exact h (List.mem_cons_of_mem c h1)

theorem formatSubject_no_nl {s : GoStr} (h : '\n' ∉ s) :
    '\n' ∉ formatSubject s := by
  have h1 : '\n' ∉ trimSpace s := fun hm =>
    h (List.Sublist.mem hm (trimSpace_sublist s))
  have h2 : '\n' ∉ stripDot (trimSpace s) := by
    rw [stripDot]
    split
    · exact fun hm => h1 (List.Sublist.mem hm (List.dropLast_sublist _))
    · exact h1
  have h3 : '\n' ∉ capitalizeHead (stripDot (trimSpace s)) :=
    capitalizeHead_no_nl h2
  simp only [formatSubject]
  split
  · intro hm
    rcases List.mem_append.mp hm with hm1 | hm1
    · exact h3 (List.Sublist.mem hm1 (takeBytes_sublist _ _))
    · simp at hm1
  · exact h3

theorem formatSubject_eq_nil {s : GoStr} (h : formatSubject s = []) :
    trimSpace s = ['.'] ∨ trimSpace s = [] := by
  simp only [formatSubject] at h
  split at h
  · exact absurd h (by simp)
  · have hs2 : stripDot (trimSpace s) = [] := by
      cases hs2 : stripDot (trimSpace s) with
      | nil => rfl
      | cons c0 rest => rw [hs2] at h; simp [capitalizeHead] at h
    rw [stripDot] at hs2
    split at hs2
    · next hdot =>
      left
      have hne : trimSpace s ≠ [] := by
        intro hnil
        rw [hnil] at hdot
        simp at hdot
      have := List.dropLast_append_getLast hne
      rw [hs2] at this
      rw [List.getLast?_eq_getLast _ hne, Option.some_inj] at hdot
      rw [← this, hdot]
      simp
    · right
      exact hs2

theorem formatSubject_eq_self {s : GoStr} (ht : trimSpace s = s)
    (hdot : s.getLast? ≠ some '.') (hlow : ¬ goIsLower (s.headD ' '))
    (hlen : goLen s ≤ 50) : formatSubject s = s := by
  simp only [formatSubject, ht]
  rw [stripDot, if_neg hdot]
  have hcap : capitalizeHead s = s := by
    cases s with
    | nil => rfl
    | cons c r =>
      simp only [capitalizeHead]
      rw [goToUpper_of_not_lower (by simpa using hlow)]
  rw [hcap, if_neg (by omega)]

/-! ## Structure of successful `FormatCommitMessage` runs -/

theorem trimSpace_head_not_ws {raw : GoStr} {c : Char} {r : GoStr}
    (ht : trimSpace raw = c :: r) : ¬ goIsSpace c := by
  have hne : trimRightWs (trimLeftWs raw) ≠ [] := by
    rw [← trimSpace]; simp [ht]
  have hh := trimRightWs_head? (s := trimLeftWs raw) hne
  rw [← trimSpace, ht] at hh
  cases hl : trimLeftWs raw with
  | nil => rw [hl] at hh; simp at hh
  | cons d v =>
    rw [hl] at hh
    simp only [List.head?_cons, Option.some_inj] at hh
    rw [hh]
    exact trimLeftWs_head_not_ws (s := raw) hl

theorem FormatCommitMessage_some {raw : GoStr} (h : trimSpace raw ≠ []) :
    ∃ l0 rest,
      splitOnNl (trimSpace raw) = l0 :: rest ∧
      trimSpace l0 ≠ [] ∧
      ∃ body, FormatCommitMessage raw = some ⟨formatSubject (trimSpace l0), body⟩ := by
  have hraw : raw ≠ [] := by
    intro hr
    rw [hr] at h
    exact h rfl
  obtain ⟨c, r, hcr⟩ : ∃ c r, trimSpace raw = c :: r := by
    cases ht : trimSpace raw with
    | nil => exact absurd ht h
    | cons c r => exact ⟨c, r, rfl⟩
  have hcw : ¬ goIsSpace c := trimSpace_head_not_ws hcr
  have hnl : c ≠ '\n' := fun hc => hcw (by rw [hc]; exact not_goIsSpace_nl)
  obtain ⟨l0, rest, hsplit, hl0⟩ := splitOnNl_head_head hcr hnl
  have hcl0 : c ∈ l0 := by
    cases hl : l0 with
    | nil => rw [hl] at hl0; simp at hl0
    | cons d v =>
      rw [hl] at hl0
      simp only [List.head?_cons, Option.some_inj] at hl0
      simp [hl0]
  have hsub : trimSpace l0 ≠ [] := by
    intro hnil
    rw [trimSpace_eq_nil_iff] at hnil
    exact hcw (hnil c hcl0)
  refine ⟨l0, rest, hsplit, hsub, ?_⟩
  unfold FormatCommitMessage
  rw [if_neg hraw, hsplit]
  simp only [if_neg hsub]
  exact ⟨_, rfl⟩

theorem FormatCommitMessage_inv {raw : GoStr} {m : Message}
    (h : FormatCommitMessage raw = some m) :
    ∃ l0 rest, splitOnNl (trimSpace raw) = l0 :: rest ∧ trimSpace l0 ≠ [] ∧
      m.Subject = formatSubject (trimSpace l0) := by
  have htrim : trimSpace raw ≠ [] := by
    intro ht
    unfold FormatCommitMessage at h
    by_cases hraw : raw = []
    · rw [if_pos hraw] at h
      cases h
    · rw [if_neg hraw, ht] at h
      simp [splitOnNl, trimSpace, trimRightWs, trimLeftWs] at h
  obtain ⟨l0, rest, hsplit, hsub, body, hF⟩ := FormatCommitMessage_some htrim
  rw [h, Option.some_inj] at hF
  exact ⟨l0, rest, hsplit, hsub, by rw [hF]⟩

/-- C2 (amended): for every raw input with non-empty trimmed form,
`FormatCommitMessage` succeeds, the subject's byte length is at most 50
and its first rune is uppercase whenever it has a defined case; the
subject ends in a period only when the trimmed first line ended in two
consecutive periods (one is stripped, one remains) or when the subject
was truncated, in which case it ends with the ellipsis `"..."`. -/
theorem format_subject_bounds (raw : GoStr) (h : trimSpace raw ≠ []) :
    ∃ m, FormatCommitMessage raw = some m ∧
      goLen m.Subject ≤ 50 ∧
      (∀ c, m.Subject.head? = some c → goHasCase c → goIsUpper c) ∧
      (m.Subject.getLast? = some '.' →
        ((trimSpace ((splitOnNl (trimSpace raw)).headD [])).getLast? = some '.' ∧
          (trimSpace ((splitOnNl (trimSpace raw)).headD [])).dropLast.getLast? =
            some '.') ∨
        ∃ t, m.Subject = t ++ ['.', '.', '.']) := by
  obtain ⟨l0, rest, hsplit, hsub, body, hF⟩ := FormatCommitMessage_some h
  refine ⟨_, hF, goLen_formatSubject_le _, ?_, ?_⟩
  · intro c hc hcase
    exact formatSubject_head_upper hc hcase
  · intro hdot
    have hd := formatSubject_dot_suffix (s := trimSpace l0) hdot
    rw [trimSpace_idem] at hd
    rw [hsplit]
    simpa using hd

/-- C2, as stated, is false: an input of eighty `a`s produces a subject
that ends with a period (the appended ellipsis `"..."`). -/
theorem format_subject_bounds_counterexample :
    FormatCommitMessage (List.replicate 80 'a') =
      some ⟨'A' :: List.replicate 46 'a' ++ ['.', '.', '.'], []⟩ ∧
    (('A' : Char) :: List.replicate 46 'a' ++ ['.', '.', '.']).getLast? =
      some '.' := by decide

theorem format_subject_bounds_witness :
    trimSpace "add user authentication".toList ≠ [] ∧
    ∃ m, FormatCommitMessage "add user authentication".toList = some m ∧
      goLen m.Subject ≤ 50 ∧
      (∀ c, m.Subject.head? = some c → goHasCase c → goIsUpper c) ∧
      (m.Subject.getLast? = some '.' →
        ((trimSpace ((splitOnNl (trimSpace "add user authentication".toList)).headD [])).getLast? = some '.' ∧
          (trimSpace ((splitOnNl (trimSpace "add user authentication".toList)).headD [])).dropLast.getLast? =
            some '.') ∨
        ∃ t, m.Subject = t ++ ['.', '.', '.']) :=
  ⟨by decide, format_subject_bounds "add user authentication".toList (by decide)⟩

/-- C7 (amended): every message constructed by a successful
`FormatCommitMessage` run has a newline-free subject, and the subject is
non-empty except when the trimmed first line is exactly `"."`, in which
case the formatter returns an empty subject without error. -/
theorem subject_no_newline (raw : GoStr) (m : Message)
    (h : FormatCommitMessage raw = some m) :
    '\n' ∉ m.Subject ∧
      (m.Subject = [] →
        trimSpace ((splitOnNl (trimSpace raw)).headD []) = ['.']) := by
  obtain ⟨l0, rest, hsplit, hsub, hsubj⟩ := FormatCommitMessage_inv h
  have hnl0 : '\n' ∉ l0 :=
    mem_splitOnNl_no_nl (by rw [hsplit]; exact List.mem_cons_self l0 rest)
  have hnsub0 : '\n' ∉ trimSpace l0 := fun hm =>
    hnl0 (List.Sublist.mem hm (trimSpace_sublist l0))
  constructor
  · rw [hsubj]
    exact formatSubject_no_nl hnsub0
  · intro hempty
    rw [hsubj] at hempty
    rcases formatSubject_eq_nil hempty with h1 | h1 <;>
      rw [trimSpace_idem] at h1
    · rw [hsplit]
      simpa using h1
    · exact absurd h1 hsub

/-- C7, as stated, is false: the input `"."` is accepted and yields an
*empty* subject (the period is stripped and no emptiness re-check runs). -/
theorem subject_no_newline_counterexample :
    FormatCommitMessage ['.'] = some ⟨[], []⟩ := by decide

theorem subject_no_newline_witness :
    '\n' ∉ (Message.mk "Fix bug".toList []).Subject ∧
      ((Message.mk "Fix bug".toList []).Subject = [] →
        trimSpace ((splitOnNl (trimSpace "Fix bug".toList)).headD []) = ['.']) :=
  subject_no_newline "Fix bug".toList ⟨"Fix bug".toList, []⟩ (by decide)

/-- C4 (amended): truncation lengths are counted in *bytes*, not code
points: when the byte length after trimming, period-stripping and
capitalization exceeds 50, the subject becomes its first 47 bytes (whole
runes) plus `"..."`, for a byte length of at most 50; for all-ASCII
input this is exactly the first 47 characters plus `"..."`, total length
exactly 50. -/
theorem subject_truncation (s : GoStr)
    (h : 50 < goLen (capitalizeHead (stripDot (trimSpace s)))) :
    formatSubject s =
      takeBytes 47 (capitalizeHead (stripDot (trimSpace s))) ++ ['.', '.', '.'] ∧
    goLen (formatSubject s) ≤ 50 ∧
    ((∀ c ∈ s, c.utf8Size = 1) →
      formatSubject s =
        (capitalizeHead (stripDot (trimSpace s))).take 47 ++ ['.', '.', '.'] ∧
      (formatSubject s).length = 50) := by
  have heq : formatSubject s =
      takeBytes 47 (capitalizeHead (stripDot (trimSpace s))) ++ ['.', '.', '.'] := by
    simp only [formatSubject]
    rw [if_pos h]
  refine ⟨heq, goLen_formatSubject_le s, ?_⟩
  intro hascii
  have hs1 : ∀ c ∈ trimSpace s, c.utf8Size = 1 := fun c hc =>
    hascii c (List.Sublist.mem hc (trimSpace_sublist s))
  have hs2 : ∀ c ∈ stripDot (trimSpace s), c.utf8Size = 1 := by
    intro c hc
    rw [stripDot] at hc
    split at hc
    · exact hs1 c (List.Sublist.mem hc (List.dropLast_sublist _))
    · exact hs1 c hc
  have hs3 : ∀ c ∈ capitalizeHead (stripDot (trimSpace s)), c.utf8Size = 1 := by
    intro c hc
    cases hcase : stripDot (trimSpace s) with
    | nil => rw [hcase] at hc; simp [capitalizeHead] at hc
    | cons c0 r =>
      rw [hcase] at hc
      simp only [capitalizeHead, List.mem_cons] at hc
      rcases hc with rfl | hc
      · exact utf8Size_goToUpper_one (hs2 c0 (by rw [hcase]; simp))
      · exact hs2 c (by rw [hcase]; simp [hc])
  have htake := takeBytes_all_one (s := capitalizeHead (stripDot (trimSpace s)))
    47 hs3
  have hlen3 := goLen_all_one hs3
  constructor
  · rw [heq, htake]
  · rw [heq, htake, List.length_append, List.length_take]
    simp only [List.length_cons, List.length_nil]
    omega

/-- C4, as stated (code-point counting), is false: a 60-code-point
subject made of `'a'` and 59 copies of the two-byte rune `'é'` is
truncated by *byte* count, yielding 27 code points, not the stated
first-47-code-points plus `"..."` of length 50. -/
theorem subject_truncation_counterexample :
    50 < (capitalizeHead (stripDot (trimSpace ('a' :: List.replicate 59 'é')))).length ∧
    formatSubject ('a' :: List.replicate 59 'é') ≠
      (capitalizeHead (stripDot (trimSpace ('a' :: List.replicate 59 'é')))).take 47 ++
        ['.', '.', '.'] ∧
    (formatSubject ('a' :: List.replicate 59 'é')).length ≠ 50 := by decide

theorem subject_truncation_witness :
    50 < goLen (capitalizeHead (stripDot (trimSpace (List.replicate 80 'a')))) ∧
    (formatSubject (List.replicate 80 'a') =
      takeBytes 47 (capitalizeHead (stripDot (trimSpace (List.replicate 80 'a')))) ++
        ['.', '.', '.'] ∧
    goLen (formatSubject (List.replicate 80 'a')) ≤ 50 ∧
    ((∀ c ∈ List.replicate 80 'a', c.utf8Size = 1) →
      formatSubject (List.replicate 80 'a') =
        (capitalizeHead (stripDot (trimSpace (List.replicate 80 'a')))).take 47 ++
          ['.', '.', '.'] ∧
      (formatSubject (List.replicate 80 'a')).length = 50)) :=
  ⟨by decide, subject_truncation (List.replicate 80 'a') (by decide)⟩

/-! ## Properties of `goFields` and the greedy wrapper -/

theorem goFieldsAux_mem_sublist {s : GoStr} :
    ∀ {cur w : GoStr}, w ∈ goFieldsAux s cur →
      List.Sublist w (cur.reverse ++ s) := by
  induction s with
  | nil =>
    intro cur w hw
    simp only [goFieldsAux] at hw
    split at hw
    · simp at hw
    · simp only [List.mem_singleton] at hw
      subst hw
      simp
  | cons c s ih =>
    intro cur w hw
    simp only [goFieldsAux] at hw
    by_cases hc : wsB c
    · rw [if_pos hc] at hw
      have hsub : List.Sublist s (cur.reverse ++ c :: s) := by
        refine List.Sublist.trans ?_ (List.sublist_append_right cur.reverse _)
        exact (List.sublist_cons_self c s)
      split at hw
      · exact List.Sublist.trans (by simpa using ih hw) hsub
      · rcases List.mem_cons.mp hw with rfl | hw
        · exact List.sublist_append_left _ _
        · exact List.Sublist.trans (by simpa using ih hw) hsub
    · rw [if_neg hc] at hw
      have := ih hw
      rwa [List.reverse_cons, List.append_assoc, List.singleton_append] at this

theorem goFields_mem_sublist {s w : GoStr} (hw : w ∈ goFields s) :
    List.Sublist w s := by
  simpa using goFieldsAux_mem_sublist (s := s) (w := w) hw

theorem goFieldsAux_mem_not_ws {s : GoStr} :
    ∀ {cur w : GoStr}, w ∈ goFieldsAux s cur →
      (∀ c ∈ cur, ¬ goIsSpace c) → ∀ d ∈ w, ¬ goIsSpace d := by
  induction s with
  | nil =>
    intro cur w hw hcur
    simp only [goFieldsAux] at hw
    split at hw
    · simp at hw
    · simp only [List.mem_singleton] at hw
      subst hw
      intro d hd
      exact hcur d (by simpa using hd)
  | cons c s ih =>
    intro cur w hw hcur
    simp only [goFieldsAux] at hw
    by_cases hc : wsB c
    · rw [if_pos hc] at hw
      split at hw
      · exact ih hw (by simp)
      · rcases List.mem_cons.mp hw with rfl | hw
        · intro d hd
          exact hcur d (by simpa using hd)
        · exact ih hw (by simp)
    · rw [if_neg hc] at hw
      refine ih hw ?_
      intro d hd
      rcases List.mem_cons.mp hd with rfl | hd
      · simpa using hc
      · exact hcur d hd

theorem goFields_mem_no_nl {s w : GoStr} (hw : w ∈ goFields s) : '\n' ∉ w := by
  intro hmem
  exact goFieldsAux_mem_not_ws hw (by simp) '\n' hmem not_goIsSpace_nl

theorem greedy_goLen_le {max : Nat} :
    ∀ (ws : List GoStr) (cur : GoStr), (∀ w ∈ ws, goLen w ≤ max) →
      goLen cur ≤ max → ∀ l ∈ greedy max ws cur, goLen l ≤ max := by
  intro ws
  induction ws with
  | nil =>
    intro cur _ hcur l hl
    simp only [greedy] at hl
    split at hl
    · simp at hl
    · simp only [List.mem_singleton] at hl
      subst hl
      exact hcur
  | cons w rest ih =>
    intro cur hws hcur l hl
    have hw : goLen w ≤ max := hws w (by simp)
    have hrest : ∀ v ∈ rest, goLen v ≤ max := fun v hv => hws v (by simp [hv])
    simp only [greedy] at hl
    split at hl
    · rcases List.mem_cons.mp hl with rfl | hl
      · exact hcur
      · exact ih w hrest hw l hl
    · next hcond =>
      refine ih _ hrest ?_ l hl
      by_cases hnil : cur = []
      · simpa [hnil] using hw
      · have hle : goLen cur + 1 + goLen w ≤ max := by
          rcases not_and_or.mp hcond with h1 | h1
          · exact absurd hnil (by simpa using h1)
          · omega
        rw [if_neg hnil, goLen_append, goLen_cons]
        have hsp : (' ').utf8Size = 1 := rfl
        omega

theorem greedy_long_word_self {max : Nat} {w : GoStr} (hw : max < goLen w) :
    ∀ ws : List GoStr, w ∈ greedy max ws w := by
  intro ws
  have hne : w ≠ [] := by
    intro h
    rw [h] at hw
    simp [goLen] at hw
  cases ws with
  | nil => simp [greedy, hne]
  | cons v rest =>
    have hcond : w ≠ [] ∧ max < goLen w + 1 + goLen v := ⟨hne, by omega⟩
    simp only [greedy, if_pos hcond]
    exact List.mem_cons_self _ _

theorem greedy_mem_long {max : Nat} {w : GoStr} (hw : max < goLen w) :
    ∀ (ws : List GoStr) (cur : GoStr), w ∈ ws → w ∈ greedy max ws cur := by
  intro ws
  induction ws with
  | nil =>
    intro cur h
    simp at h
  | cons v rest ih =>
    intro cur hmem
    rcases List.mem_cons.mp hmem with rfl | hmem
    · simp only [greedy]
      split
      · exact List.mem_cons_of_mem _ (greedy_long_word_self hw rest)
      · next hcond =>
        by_cases hnil : cur = []
        · simpa [hnil] using greedy_long_word_self hw rest
        · exfalso
          rcases not_and_or.mp hcond with h1 | h1
          · exact absurd hnil (by simpa using h1)
          · have hpos : 0 < goLen cur := by
              rcases Nat.eq_zero_or_pos (goLen cur) with hz | hp
              · exact absurd (goLen_eq_zero hz) hnil
              · exact hp
            omega
    · simp only [greedy]
      split
      · exact List.mem_cons_of_mem _ (ih v hmem)
      · exact ih _ hmem

theorem greedy_no_nl {max : Nat} :
    ∀ (ws : List GoStr) (cur : GoStr), (∀ w ∈ ws, '\n' ∉ w) → '\n' ∉ cur →
      ∀ l ∈ greedy max ws cur, '\n' ∉ l := by
  intro ws
  induction ws with
  | nil =>
    intro cur _ hcur l hl
    simp only [greedy] at hl
    split at hl
    · simp at hl
    · simp only [List.mem_singleton] at hl
      subst hl
      exact hcur
  | cons w rest ih =>
    intro cur hws hcur l hl
    have hw : '\n' ∉ w := hws w (by simp)
    have hrest : ∀ v ∈ rest, '\n' ∉ v := fun v hv => hws v (by simp [hv])
    simp only [greedy] at hl
    split at hl
    · rcases List.mem_cons.mp hl with rfl | hl
      · exact hcur
      · exact ih w hrest hw l hl
    · refine ih _ hrest ?_ l hl
      by_cases hnil : cur = []
      · simpa [hnil] using hw
      · rw [if_neg hnil]
        intro hmem
        rcases List.mem_append.mp hmem with h1 | h1
        · exact hcur h1
        · rcases List.mem_cons.mp h1 with h2 | h2
          · exact absurd h2.symm (by decide)
          · exact hw h2

/-- C5: for a paragraph all of whose fields are at most 72 bytes long,
every line `wrapText` produces is at most 72 bytes long; and every field
longer than 72 bytes appears whole, as a line of its own, in the
output. -/
theorem body_wrap_bounds (text : GoStr) :
    ((∀ w ∈ goFields (trimSpace text), goLen w ≤ 72) →
      ∀ l ∈ splitOnNl (wrapText text 72), goLen l ≤ 72) ∧
    (∀ w ∈ goFields (trimSpace text), 72 < goLen w →
      w ∈ splitOnNl (wrapText text 72)) := by
  constructor
  · intro hws l hl
    simp only [wrapText] at hl
    by_cases hearly : goLen text ≤ 72
    · rw [if_pos hearly] at hl
      exact le_trans (goLen_mem_splitOnNl_le hl)
        (le_trans (goLen_trimSpace_le text) hearly)
    · rw [if_neg hearly] at hl
      by_cases hwnil : goFields (trimSpace text) = []
      · rw [if_pos hwnil] at hl
        simp only [splitOnNl, List.mem_singleton] at hl
        simp [hl, goLen]
      · rw [if_neg hwnil] at hl
        have hnl : ∀ v ∈ greedy 72 (goFields (trimSpace text)) [], '\n' ∉ v :=
          greedy_no_nl _ [] (fun v hv => goFields_mem_no_nl hv) (by simp)
        cases hg : greedy 72 (goFields (trimSpace text)) [] with
        | nil =>
          rw [hg, joinNl_nil] at hl
          simp only [splitOnNl, List.mem_singleton] at hl
          simp [hl, goLen]
        | cons a t =>
          rw [hg] at hl
          rw [splitOnNl_joinNl (by simp) fun v hv => hnl v (hg ▸ hv)] at hl
          exact greedy_goLen_le _ [] hws (by simp [goLen]) l (hg ▸ hl)
  · intro w hw hlong
    have hle1 : goLen w ≤ goLen (trimSpace text) :=
      goLen_sublist (goFields_mem_sublist hw)
    have hle2 := goLen_trimSpace_le text
    have hearly : ¬ goLen text ≤ 72 := by omega
    simp only [wrapText]
    rw [if_neg hearly, if_neg (by intro hnil; rw [hnil] at hw; simp at hw)]
    have hmem := greedy_mem_long hlong (goFields (trimSpace text)) [] hw
    have hnl : ∀ v ∈ greedy 72 (goFields (trimSpace text)) [], '\n' ∉ v :=
      greedy_no_nl _ [] (fun v hv => goFields_mem_no_nl hv) (by simp)
    have hgne : greedy 72 (goFields (trimSpace text)) [] ≠ [] := by
      intro hnil
      rw [hnil] at hmem
      simp at hmem
    rw [splitOnNl_joinNl hgne hnl]
    exact hmem

theorem body_wrap_bounds_witness :
    (∀ l ∈ splitOnNl (wrapText "hello world".toList 72), goLen l ≤ 72) ∧
    List.replicate 73 'x' ∈ splitOnNl (wrapText (List.replicate 73 'x') 72) :=
  ⟨(body_wrap_bounds "hello world".toList).1 (by decide),
   (body_wrap_bounds (List.replicate 73 'x')).2 (List.replicate 73 'x')
     (by decide) (by decide)⟩

/-! ## ParseMessage / Format round trip -/

theorem ParseMessage_single {s : GoStr} (hnl : '\n' ∉ s)
    (hs : trimSpace s ≠ []) : ParseMessage s = some ⟨trimSpace s, []⟩ := by
  have hne : s ≠ [] := by
    intro h
    rw [h] at hs
    exact hs rfl
  unfold ParseMessage
  rw [if_neg hne, splitOnNl_of_not_mem hnl]
  show (if trimSpace s = [] then none
    else some (Message.mk (trimSpace s) [])) = some (Message.mk (trimSpace s) [])
  rw [if_neg hs]

theorem ParseMessage_double {s b : GoStr} (hnl : '\n' ∉ s)
    (hs : trimSpace s ≠ []) :
    ParseMessage (s ++ '\n' :: '\n' :: b) = some ⟨trimSpace s, b⟩ := by
  have hne : s ++ '\n' :: '\n' :: b ≠ [] := by simp
  unfold ParseMessage
  rw [if_neg hne]
  have hsplit : splitOnNl (s ++ '\n' :: '\n' :: b) = s :: [] :: splitOnNl b := by
    rw [splitOnNl_append_cons _ hnl]
    rfl
  rw [hsplit]
  cases hsb : splitOnNl b with
  | nil => exact absurd hsb (splitOnNl_ne_nil b)
  | cons a t =>
    show (if trimSpace s = [] then none
      else some (Message.mk (trimSpace s)
        (if trimSpace [] = [] then joinNl (a :: t) else joinNl ([] :: a :: t)))) =
      some (Message.mk (trimSpace s) b)
    rw [if_neg hs, if_pos (show trimSpace ([] : GoStr) = [] from rfl)]
    have hjoin : joinNl (a :: t) = b := by
      rw [← hsb, joinNl_splitOnNl]
    rw [hjoin]

/-- C9: for every message with a non-empty, newline-free, trim-stable
subject, parsing the rendered text recovers the message exactly. -/
theorem parse_format_roundtrip (m : Message) (hne : m.Subject ≠ [])
    (hnl : '\n' ∉ m.Subject) (ht : trimSpace m.Subject = m.Subject) :
    ParseMessage m.Format = some m := by
  obtain ⟨s, b⟩ := m
  simp only [Message.Format] at *
  rw [if_neg hne]
  by_cases hb : b = []
  · rw [if_pos hb, ParseMessage_single hnl (by rw [ht]; exact hne), ht, hb]
  · rw [if_neg hb, ParseMessage_double hnl (by rw [ht]; exact hne), ht]

theorem parse_format_roundtrip_witness :
    ParseMessage (Message.mk "Fix bug".toList "First line\nSecond line".toList).Format =
      some ⟨"Fix bug".toList, "First line\nSecond line".toList⟩ :=
  parse_format_roundtrip ⟨"Fix bug".toList, "First line\nSecond line".toList⟩
    (by decide) (by decide) (by decide)

/-! ## Round-trip stability of validated messages -/

theorem dropWhile_eq_self_head {c : Char} {r : GoStr}
    (h : List.dropWhile wsB (c :: r) = c :: r) : ¬ goIsSpace c := by
  intro hws
  rw [List.dropWhile_cons, if_pos (by simpa using hws)] at h
  have hlen := (List.dropWhile_sublist (l := r) (p := wsB)).length_le
  have := congrArg List.length h
  simp only [List.length_cons] at this
  omega

theorem trimLeftWs_append_of_head {s : GoStr} (h : trimLeftWs s = s)
    (hne : s ≠ []) (y : GoStr) : trimLeftWs (s ++ y) = s ++ y := by
  cases s with
  | nil => exact absurd rfl hne
  | cons c r =>
    have hc : ¬ goIsSpace c := dropWhile_eq_self_head h
    rw [List.cons_append]
    exact trimLeftWs_cons_of_not_ws hc _

theorem Validate_none_parts {m : Message} (h : ValidateMessage m = none) :
    m.Subject ≠ [] ∧ goLen m.Subject ≤ 50 ∧ m.Subject.getLast? ≠ some '.' ∧
      ¬ goIsLower (m.Subject.headD ' ') := by
  unfold ValidateMessage at h
  split_ifs at h with h1 h2 h3 h4
  exact ⟨h1, by omega, h3, h4⟩

theorem Validate_none_intro {s b : GoStr} (hne : s ≠ []) (hlen : goLen s ≤ 50)
    (hdot : s.getLast? ≠ some '.') (hlow : ¬ goIsLower (s.headD ' ')) :
    ValidateMessage ⟨s, b⟩ = none := by
  unfold ValidateMessage
  rw [if_neg hne, if_neg (by simp only; omega), if_neg hdot, if_neg hlow]

theorem format_first_line {s b : GoStr} (hne : s ≠ [])
    (hnl : '\n' ∉ s) (ht : trimSpace s = s) :
    ∃ rest, splitOnNl (trimSpace (Message.Format ⟨s, b⟩)) = s :: rest := by
  obtain ⟨hL, hR⟩ := trimSpace_eq_self_parts ht
  simp only [Message.Format]
  rw [if_neg hne]
  by_cases hb : b = []
  · rw [if_pos hb, ht, splitOnNl_of_not_mem hnl]
    exact ⟨[], rfl⟩
  · rw [if_neg hb]
    by_cases hws : ∀ c ∈ ('\n' :: '\n' :: b : GoStr), goIsSpace c
    · have : trimSpace (s ++ '\n' :: '\n' :: b) = s := by
        rw [trimSpace, trimLeftWs_append_of_head hL hne,
          trimRightWs_append_of_allWs s hws, hR]
      rw [this, splitOnNl_of_not_mem hnl]
      exact ⟨[], rfl⟩
    · have hsplit2 : s ++ '\n' :: '\n' :: b = (s ++ ['\n', '\n']) ++ b := by
        simp
      have hbws : ¬ ∀ c ∈ b, goIsSpace c := by
        intro hall
        exact hws fun c hc => by
          rcases List.mem_cons.mp hc with rfl | hc
          · exact not_goIsSpace_nl
          · rcases List.mem_cons.mp hc with rfl | hc
            · exact not_goIsSpace_nl
            · exact hall c hc
      have : trimSpace (s ++ '\n' :: '\n' :: b) =
          s ++ '\n' :: '\n' :: trimRightWs b := by
        rw [trimSpace, trimLeftWs_append_of_head hL hne, hsplit2,
          trimRightWs_append_of_not_allWs _ hbws]
        simp
      rw [this, splitOnNl_append_cons _ hnl]
      exact ⟨_, rfl⟩

/-- C3 (amended): for every validated message whose subject is
newline-free and trim-stable, re-running `FormatCommitMessage` on the
rendered text yields a message (with the same subject) on which
`ValidateMessage` reports none of `SubjectTooLong`, `TrailingPeriod` or
`NotCapitalized`. -/
theorem validate_format_stability (m : Message)
    (hv : ValidateMessage m = none) (hnl : '\n' ∉ m.Subject)
    (ht : trimSpace m.Subject = m.Subject) :
    ∃ m', FormatCommitMessage m.Format = some m' ∧ m'.Subject = m.Subject ∧
      ValidateMessage m' ≠ some .subjectTooLong ∧
      ValidateMessage m' ≠ some .trailingPeriod ∧
      ValidateMessage m' ≠ some .notCapitalized := by
  obtain ⟨s, b⟩ := m
  obtain ⟨hne, hlen, hdot, hlow⟩ := Validate_none_parts hv
  simp only at hne hlen hdot hlow hnl ht
  obtain ⟨rest, hsplit⟩ := format_first_line (b := b) hne hnl ht
  have htrim : trimSpace (Message.Format ⟨s, b⟩) ≠ [] := by
    intro h0
    rw [h0] at hsplit
    simp only [splitOnNl] at hsplit
    cases hsplit
    exact hne rfl
  obtain ⟨l0, rest', hsplit', hsub, body, hF⟩ := FormatCommitMessage_some htrim
  rw [hsplit] at hsplit'
  injection hsplit' with h1 h2
  subst h1
  have hsubj : formatSubject (trimSpace s) = s := by
    rw [ht]
    exact formatSubject_eq_self ht hdot hlow hlen
  rw [hsubj] at hF
  refine ⟨⟨s, body⟩, hF, rfl, ?_⟩
  rw [Validate_none_intro hne hlen hdot hlow]
  refine ⟨by simp, by simp, by simp⟩

/-- C3, as stated, is false: the message with subject `"X..\ny"` and
empty body passes `ValidateMessage`, but re-formatting its rendering
produces subject `"X."`, which triggers `TrailingPeriod`. -/
theorem validate_format_stability_counterexample :
    ValidateMessage ⟨"X..\ny".toList, []⟩ = none ∧
    FormatCommitMessage (Message.mk "X..\ny".toList []).Format =
      some ⟨"X.".toList, "y".toList⟩ ∧
    ValidateMessage ⟨"X.".toList, "y".toList⟩ = some .trailingPeriod := by
  decide

theorem validate_format_stability_witness :
    ∃ m', FormatCommitMessage (Message.mk "Add feature".toList "Some body".toList).Format =
        some m' ∧
      m'.Subject = (Message.mk "Add feature".toList "Some body".toList).Subject ∧
      ValidateMessage m' ≠ some .subjectTooLong ∧
      ValidateMessage m' ≠ some .trailingPeriod ∧
      ValidateMessage m' ≠ some .notCapitalized :=
  validate_format_stability ⟨"Add feature".toList, "Some body".toList⟩
    (by decide) (by decide) (by decide)

/-! ## The rollback guarantee and the review loop -/

theorem finishSession_unstaged_of_ne {staged : List GoStr} (hne : staged ≠ [])
    (o : Outcome) (gens : Nat) (fm : Option GoStr) :
    (finishSession staged false o gens fm).unstaged = some staged := by
  simp [finishSession, hne]

/-- C1: in every terminating session in which the tool staged a
non-empty set of files, the deferred cleanup passes exactly that set to
`UnstageFiles` precisely when the outcome is not a successful commit;
and a `committed` outcome occurs only when the commit step reported
success. -/
theorem rollback_scoped_release (stagedByTool : List GoStr)
    (hne : stagedByTool ≠ []) (totalStagedFiles : Nat) (diffOk : Bool)
    (rounds : List Round) (commitOk : Bool) (res : SessionResult)
    (h : runSession stagedByTool totalStagedFiles diffOk rounds commitOk =
      some res) :
    (res.unstaged = some stagedByTool ↔ res.outcome ≠ .committed) ∧
    (res.outcome = .committed → commitOk = true) := by
  unfold runSession at h
  split at h
  · rw [Option.some_inj] at h
    subst h
    exact ⟨by simp [finishSession, hne], by simp [finishSession]⟩
  · split at h
    · rw [Option.some_inj] at h
      subst h
      exact ⟨by simp [finishSession, hne], by simp [finishSession]⟩
    · split at h
      · exact absurd h (by simp)
      · rw [Option.some_inj] at h
        subst h
        exact ⟨by simp [finishSession, hne], by simp [finishSession]⟩
      · split at h
        · next hcommit =>
          rw [Option.some_inj] at h
          subst h
          constructor
          · simp [finishSession, hne]
          · intro _
            exact hcommit
        · rw [Option.some_inj] at h
          subst h
          exact ⟨by simp [finishSession, hne], by simp [finishSession]⟩

theorem rollback_scoped_release_witness :
    (["a.go".toList] ≠ ([] : List GoStr)) ∧
    runSession ["a.go".toList] 1 true [⟨.ok "fix bug".toList, .quit⟩] true =
      some { outcome := .loopErr .aborted, genCalls := 1,
             unstaged := some ["a.go".toList], finalMessage := none } ∧
    ((some ["a.go".toList] = some ["a.go".toList] ↔
        Outcome.loopErr .aborted ≠ .committed) ∧
      (Outcome.loopErr .aborted = .committed → true = true)) :=
  ⟨by decide, by decide, by
    have := rollback_scoped_release ["a.go".toList] (by decide) 1 true
      [⟨.ok "fix bug".toList, .quit⟩] true
      { outcome := .loopErr .aborted, genCalls := 1,
        unstaged := some ["a.go".toList], finalMessage := none } (by decide)
    exact this⟩

/-- The session script in which the user chooses `edit` and the editor
buffer trims to nothing: the source's own claim that this "returns to
options" notwithstanding, the `continue` re-enters the generation loop. -/
def emptyEditRounds : List Round :=
  [⟨.ok "fix bug".toList, .edit (.ok "   ".toList)⟩,
   ⟨.ok "add docs".toList, .accept⟩]

/-- C8 is violated by the code: after an edit whose result trims to
empty, the loop `continue`s into a *fresh generation*: the model client
is invoked a second time (`genCalls = 2`) and the session commits the
*second* candidate `"Add docs"`, not the pre-edit candidate
`"Fix bug"`. -/
theorem empty_edit_regenerates :
    runSession ["a.go".toList] 1 true emptyEditRounds true =
      some { outcome := .committed, genCalls := 2,
             unstaged := none, finalMessage := some "Add docs".toList } := by
  decide

/-! ## Staging reconciliation theorems -/

/-- C6: for snapshots `A ⊆ B`, the newly-staged set computed by the
auto-stage step is exactly `B − A`, and unstaging exactly that set
restores the staged set to exactly `A`. -/
theorem atomic_stage_reconciliation {α : Type} [DecidableEq α]
    (A B : List α) (hAB : ∀ a ∈ A, a ∈ B) :
    ((AtomicStageAll A B).NewlyStaged).toFinset = B.toFinset \ A.toFinset ∧
    (unstageEffect B ((AtomicStageAll A B).NewlyStaged)).toFinset =
      A.toFinset := by
  constructor
  · ext x
    simp [AtomicStageAll, stagedByToolCompute, List.mem_filter]
  · ext x
    simp [unstageEffect, AtomicStageAll, stagedByToolCompute,
      List.mem_filter, List.contains, not_and, Decidable.not_not]
    constructor
    · rintro ⟨hxB, hx⟩
      rcases hx with h | h
      · exact absurd hxB h
      · exact h
    · intro hxA
      exact ⟨hAB x hxA, Or.inr hxA⟩

theorem atomic_stage_reconciliation_witness :
    (∀ a ∈ [(1 : Nat)], a ∈ [1, 2, 3]) ∧
    (((AtomicStageAll [(1 : Nat)] [1, 2, 3]).NewlyStaged).toFinset =
        ([1, 2, 3] : List Nat).toFinset \ ([1] : List Nat).toFinset ∧
      (unstageEffect [1, 2, 3]
        ((AtomicStageAll [(1 : Nat)] [1, 2, 3]).NewlyStaged)).toFinset =
        ([1] : List Nat).toFinset) :=
  ⟨by decide, atomic_stage_reconciliation [1] [1, 2, 3] (by decide)⟩

/-! ## How trimming a joined string acts on its lines -/

/-- Leading-edge trim at the line level: drop all-whitespace lines, then
left-trim the first surviving line. -/
def leadTrim : List GoStr → List GoStr
  | [] => []
  | a :: rest =>
    if ∀ c ∈ a, goIsSpace c then leadTrim rest else trimLeftWs a :: rest

theorem trimLeftWs_joinNl (ls : List GoStr) :
    trimLeftWs (joinNl ls) = joinNl (leadTrim ls) := by
  induction ls with
  | nil => rfl
  | cons a rest ih =>
    cases rest with
    | nil =>
      rw [joinNl_singleton, leadTrim]
      by_cases ha : ∀ c ∈ a, goIsSpace c
      · rw [if_pos ha]
        rw [show joinNl (leadTrim ([] : List GoStr)) = [] from rfl]
        exact dropWhileWs_eq_nil_iff.mpr ha
      · rw [if_neg ha, joinNl_singleton]
    | cons b rest2 =>
      rw [joinNl_cons_cons, leadTrim]
      by_cases ha : ∀ c ∈ a, goIsSpace c
      · rw [if_pos ha, trimLeftWs, dropWhileWs_append_of_all _ ha,
          List.dropWhile_cons, if_pos (by simp [not_goIsSpace_nl])]
        exact ih
      · have hne : trimLeftWs a ≠ [] := fun hnil =>
          ha (trimLeftWs_eq_nil_iff.mp hnil)
        rw [if_neg ha, trimLeftWs, dropWhileWs_append_of_ne_nil _ hne,
          joinNl_cons_cons]
        rfl

theorem mem_leadTrim {ls : List GoStr} {l : GoStr} (h : l ∈ leadTrim ls) :
    ∃ a ∈ ls, l = a ∨ l = trimLeftWs a := by
  induction ls with
  | nil => simp [leadTrim] at h
  | cons a rest ih =>
    rw [leadTrim] at h
    split at h
    · obtain ⟨b, hb, hl⟩ := ih h
      exact ⟨b, List.mem_cons_of_mem a hb, hl⟩
    · rcases List.mem_cons.mp h with rfl | h
      · exact ⟨a, List.mem_cons_self a rest, Or.inr rfl⟩
      · exact ⟨l, List.mem_cons_of_mem a h, Or.inl rfl⟩

theorem joinNl_append_singleton {L : List GoStr} (x : GoStr) (h : L ≠ []) :
    joinNl (L ++ [x]) = joinNl L ++ '\n' :: x := by
  induction L with
  | nil => exact absurd rfl h
  | cons a rest ih =>
    cases rest with
    | nil =>
      rw [List.cons_append, List.nil_append, joinNl_cons_cons,
        joinNl_singleton, joinNl_singleton]
    | cons b rest2 =>
      rw [List.cons_append, joinNl_cons_cons,
        show (b :: rest2) ++ [x] = b :: (rest2 ++ [x]) from rfl, joinNl_cons_cons]
      rw [show b :: (rest2 ++ [x]) = (b :: rest2) ++ [x] from rfl, ih (by simp)]
      simp [joinNl_cons_cons, List.append_assoc]

theorem reverse_joinNl (ls : List GoStr) :
    (joinNl ls).reverse = joinNl ((ls.map List.reverse).reverse) := by
  induction ls with
  | nil => rfl
  | cons a rest ih =>
    cases rest with
    | nil => simp [joinNl_singleton]
    | cons b rest2 =>
      rw [joinNl_cons_cons, List.map_cons, List.reverse_cons,
        joinNl_append_singleton _ (by simp), ← ih]
      simp

/-- Trailing-edge trim at the line level, via reversal. -/
def tailTrim (ls : List GoStr) : List GoStr :=
  ((leadTrim ((ls.map List.reverse).reverse)).map List.reverse).reverse

theorem trimRightWs_joinNl (ls : List GoStr) :
    trimRightWs (joinNl ls) = joinNl (tailTrim ls) := by
  show ((joinNl ls).reverse.dropWhile wsB).reverse = _
  rw [reverse_joinNl]
  rw [show (joinNl ((ls.map List.reverse).reverse)).dropWhile wsB =
    trimLeftWs (joinNl ((ls.map List.reverse).reverse)) from rfl]
  rw [trimLeftWs_joinNl, reverse_joinNl, tailTrim]

theorem mem_tailTrim {ls : List GoStr} {l : GoStr} (h : l ∈ tailTrim ls) :
    ∃ a ∈ ls, l = a ∨ l = trimRightWs a := by
  rw [tailTrim, List.mem_reverse, List.mem_map] at h
  obtain ⟨x, hx, hl⟩ := h
  obtain ⟨m, hm, hxm⟩ := mem_leadTrim hx
  rw [List.mem_reverse, List.mem_map] at hm
  obtain ⟨a, ha, hma⟩ := hm
  refine ⟨a, ha, ?_⟩
  rcases hxm with rfl | rfl
  · left
    rw [← hl, ← hma, List.reverse_reverse]
  · right
    rw [← hl, ← hma, trimRightWs]
    rfl

theorem trimLeftWs_trimRightWs_comm (s : GoStr) :
    trimLeftWs (trimRightWs s) = trimRightWs (trimLeftWs s) := by
  cases hu : trimLeftWs s with
  | nil =>
    have hall : ∀ c ∈ s, goIsSpace c := trimLeftWs_eq_nil_iff.mp hu
    rw [trimRightWs_eq_nil_iff.mpr hall]
    rfl
  | cons c u' =>
    rw [← hu]
    have hsplit : s = s.takeWhile wsB ++ trimLeftWs s :=
      (List.takeWhile_append_dropWhile (p := wsB) (l := s)).symm
    have hwall : ∀ d ∈ s.takeWhile wsB, goIsSpace d := fun d hd => by
      simpa using List.mem_takeWhile_imp hd
    have hc : ¬ goIsSpace c := trimLeftWs_head_not_ws hu
    have hnotall : ¬ ∀ d ∈ trimLeftWs s, goIsSpace d := by
      rw [hu]
      intro hcon
      exact hc (hcon c (by simp))
    have h2 : trimRightWs s = s.takeWhile wsB ++ trimRightWs (trimLeftWs s) := by
      conv_lhs => rw [hsplit]
      exact trimRightWs_append_of_not_allWs _ hnotall
    rw [h2, trimLeftWs, dropWhileWs_append_of_all _ hwall]
    cases hr : trimRightWs (trimLeftWs s) with
    | nil => rfl
    | cons d v =>
      have hh := trimRightWs_head? (s := trimLeftWs s) (by rw [hr]; simp)
      rw [hr, hu] at hh
      simp only [List.head?_cons, Option.some_inj] at hh
      rw [List.dropWhile_cons, if_neg (by simp [wsB_eq_true, hh, hc])]

theorem trimSpace_trimLeftWs (s : GoStr) :
    trimSpace (trimLeftWs s) = trimSpace s := by
  show trimRightWs (trimLeftWs (trimLeftWs s)) = trimSpace s
  rw [show trimLeftWs (trimLeftWs s) = trimLeftWs s from dropWhileWs_idem s]
  rfl

theorem trimSpace_trimRightWs (s : GoStr) :
    trimSpace (trimRightWs s) = trimSpace s := by
  show trimRightWs (trimLeftWs (trimRightWs s)) = trimSpace s
  rw [trimLeftWs_trimRightWs_comm, trimRightWs_idem]
  rfl

theorem isCommentLine_trimLeftWs (s : GoStr) :
    isCommentLine (trimLeftWs s) = isCommentLine s := by
  unfold isCommentLine
  rw [trimSpace_trimLeftWs]

theorem isCommentLine_trimRightWs (s : GoStr) :
    isCommentLine (trimRightWs s) = isCommentLine s := by
  unfold isCommentLine
  rw [trimSpace_trimRightWs]

theorem isCommentLine_of_head {t : GoStr} (h : t.headD ' ' = '#') :
    isCommentLine t = true := by
  cases t with
  | nil => simp at h
  | cons c t' =>
    simp only [List.headD_cons] at h
    subst h
    have hham : ¬ goIsSpace '#' := by decide
    unfold isCommentLine
    rw [trimSpace, trimLeftWs_cons_of_not_ws hham]
    have hne : trimRightWs ('#' :: t') ≠ [] := by
      rw [Ne, trimRightWs_eq_nil_iff]
      intro hcon
      exact hham (hcon '#' (by simp))
    have hh := trimRightWs_head? (s := '#' :: t') hne
    cases hr : trimRightWs ('#' :: t') with
    | nil => exact absurd hr hne
    | cons d v =>
      rw [hr] at hh
      simp only [List.head?_cons, Option.some_inj] at hh
      simp [hh]

/-- C10: every line of the text that `cleanCommitMessage` returns fails
the comment test, and in particular none of the `#`-prefixed lines that
`buildCommitTemplate` adds can appear as a line of the cleaned commit
message. -/
theorem clean_message_no_comment_lines (content : GoStr) (l : GoStr)
    (hl : l ∈ splitOnNl (cleanCommitMessage content)) :
    isCommentLine l = false ∧
    (∀ msg t, t ∈ splitOnNl (buildCommitTemplate msg) → t.headD ' ' = '#' →
      l ≠ t) := by
  have hclprops : ∀ x ∈ (splitOnNl content).filter (fun line => !isCommentLine line),
      isCommentLine x = false ∧ '\n' ∉ x := by
    intro x hx
    rw [List.mem_filter] at hx
    exact ⟨by simpa using hx.2, mem_splitOnNl_no_nl hx.1⟩
  have hclean : cleanCommitMessage content =
      joinNl (tailTrim (leadTrim
        ((splitOnNl content).filter (fun line => !isCommentLine line)))) := by
    show trimSpace (joinNl _) = _
    rw [trimSpace, trimLeftWs_joinNl, trimRightWs_joinNl]
  have hLprops : ∀ x ∈ tailTrim (leadTrim
      ((splitOnNl content).filter (fun line => !isCommentLine line))),
      isCommentLine x = false ∧ '\n' ∉ x := by
    intro x hx
    obtain ⟨a, ha, hxa⟩ := mem_tailTrim hx
    obtain ⟨b, hb, hab⟩ := mem_leadTrim ha
    have hbprops := hclprops b hb
    have haprops : isCommentLine a = false ∧ '\n' ∉ a := by
      rcases hab with rfl | rfl
      · exact hbprops
      · exact ⟨by rw [isCommentLine_trimLeftWs]; exact hbprops.1,
          fun hm => hbprops.2 (List.Sublist.mem hm (trimLeftWs_sublist b))⟩
    rcases hxa with rfl | rfl
    · exact haprops
    · exact ⟨by rw [isCommentLine_trimRightWs]; exact haprops.1,
        fun hm => haprops.2 (List.Sublist.mem hm (trimRightWs_sublist a))⟩
  have hmain : isCommentLine l = false := by
    rw [hclean] at hl
    cases hLnil : tailTrim (leadTrim
        ((splitOnNl content).filter (fun line => !isCommentLine line))) with
    | nil =>
      rw [hLnil, joinNl_nil] at hl
      simp only [splitOnNl, List.mem_singleton] at hl
      subst hl
      rfl
    | cons a t =>
      rw [hLnil] at hl
      rw [splitOnNl_joinNl (by simp)
        (fun x hx => (hLprops x (hLnil ▸ hx)).2)] at hl
      exact (hLprops l (hLnil ▸ hl)).1
  refine ⟨hmain, ?_⟩
  intro msg t _ thead heq
  subst heq
  rw [isCommentLine_of_head thead] at hmain
  cases hmain

theorem clean_message_no_comment_lines_witness :
    "Hi".toList ∈ splitOnNl (cleanCommitMessage "Hi\n# note".toList) ∧
    (isCommentLine "Hi".toList = false ∧
      (∀ msg t, t ∈ splitOnNl (buildCommitTemplate msg) → t.headD ' ' = '#' →
        "Hi".toList ≠ t)) :=
  ⟨by decide,
   clean_message_no_comment_lines "Hi\n# note".toList "Hi".toList (by decide)⟩
